import Mathlib

set_option maxRecDepth 100000

/-!
Shallow embedding of the waitlist/referral store of this repository.

The repository consists of two cosmetic variants of one React component
(src/src/App.tsx and a second file of unknown name); lines 15-76 of
src/src/App.tsx (and the character-identical lines 14-75 of the other
variant) define the data-management core:

  generateReferralCode, getWaitlist, saveWaitlist, findUserByEmail,
  findUserByCode, addUser, getReferralCount, getUserRank

operating on a list of user records serialized as JSON into a single
localStorage key, "waitlist_users".

The embedding models:
  - JavaScript strings as Lean String (sequences of scalar values; the
    UTF-16 surrogate corner of JS strings is not exercised by the store);
  - the browser builtin btoa (used by generateReferralCode) including its
    InvalidCharacterError on code points above U+00FF, as Option;
  - the builtins JSON.stringify / JSON.parse on the value shapes the store
    reads and writes (strings, arrays, objects; numeric tokens are lexed
    but kept as their lexeme, since the store serializes no numbers);
  - the single storage slot "waitlist_users" as Store := Option String;
  - the store's read path at two levels: getWaitlistValue is the
    unvalidated JSON.parse result the source's getWaitlist returns (its
    WaitlistUser[] return type is erased at runtime and enforces
    nothing), and getWaitlist is that value read under the declared
    type, exact on every state the store itself writes;
  - String.prototype.toLowerCase on the Basic Latin and Latin-1 ranges
    (identity on other code points, which the store never produces
    itself because btoa restricts emails it encodes to Latin-1).

Statefulness is made explicit: every operation takes the storage contents
and returns the (possibly updated) storage contents.  A JS function that
can throw is embedded with an Option result, none meaning an exception
escaped.
-/

/-- Models String.prototype.toLowerCase on one character, covering the
Basic Latin range (A-Z) and the Latin-1 range (À-Þ except ×); all other
code points are returned unchanged. -/
def jsToLowerChar (c : Char) : Char :=
  let n := c.toNat
  if (0x41 ≤ n ∧ n ≤ 0x5A) ∨ (0xC0 ≤ n ∧ n ≤ 0xD6) ∨ (0xD8 ≤ n ∧ n ≤ 0xDE) then
    Char.ofNat (n + 0x20)
  else
    c

/-- Models String.prototype.toLowerCase. -/
def jsToLower (s : String) : String :=
  String.mk (s.data.map jsToLowerChar)

/-- Character k of the standard base64 alphabet A-Za-z0-9+/ (k < 64). -/
def b64Char (k : Nat) : Char :=
  if k < 26 then Char.ofNat (65 + k)
  else if k < 52 then Char.ofNat (71 + k)
  else if k < 62 then Char.ofNat (k - 4)
  else if k = 62 then '+'
  else '/'

/-- Inverse of the base64 alphabet: the 6-bit value of a base64 digit. -/
def b64Val (c : Char) : Option Nat :=
  let n := c.toNat
  if 65 ≤ n ∧ n ≤ 90 then some (n - 65)
  else if 97 ≤ n ∧ n ≤ 122 then some (n - 71)
  else if 48 ≤ n ∧ n ≤ 57 then some (n + 4)
  else if c = '+' then some 62
  else if c = '/' then some 63
  else none

/-- Standard base64 encoding of a byte sequence, with '=' padding,
as produced by the browser builtin btoa. -/
def encodeB64 : List Nat → List Char
  | [] => []
  | [b1] =>
      [b64Char (b1 / 4), b64Char (b1 % 4 * 16), '=', '=']
  | [b1, b2] =>
      [b64Char (b1 / 4), b64Char (b1 % 4 * 16 + b2 / 16), b64Char (b2 % 16 * 4), '=']
  | b1 :: b2 :: b3 :: rest =>
      b64Char (b1 / 4) :: b64Char (b1 % 4 * 16 + b2 / 16) ::
      b64Char (b2 % 16 * 4 + b3 / 64) :: b64Char (b3 % 64) :: encodeB64 rest

/-- Models s.replace(/=+$/, ""): removes every trailing '='. -/
def stripEqs (cs : List Char) : List Char :=
  (cs.reverse.dropWhile (fun c => c == '=')).reverse

/-- Models the browser builtin btoa: base64 of the code points of the
string, provided every code point is at most U+00FF; otherwise btoa
throws InvalidCharacterError, embedded here as none. -/
def btoa (s : String) : Option String :=
  if s.data.all (fun c => c.toNat ≤ 255) then
    some (String.mk (encodeB64 (s.data.map Char.toNat)))
  else
    none

/-- Base64 decoding of an unpadded base64 string (as produced by
encodeB64 followed by stripEqs).  Not part of the source; used to state
that the referral-code derivation is reversible. -/
def decodeB64NoPad : List Char → Option (List Nat)
  | [] => some []
  | [_] => none
  | [c1, c2] => do
      let x1 ← b64Val c1
      let x2 ← b64Val c2
      pure [x1 * 4 + x2 / 16]
  | [c1, c2, c3] => do
      let x1 ← b64Val c1
      let x2 ← b64Val c2
      let x3 ← b64Val c3
      pure [x1 * 4 + x2 / 16, x2 % 16 * 16 + x3 / 4]
  | c1 :: c2 :: c3 :: c4 :: rest => do
      let x1 ← b64Val c1
      let x2 ← b64Val c2
      let x3 ← b64Val c3
      let x4 ← b64Val c4
      let bs ← decodeB64NoPad rest
      pure ((x1 * 4 + x2 / 16) :: (x2 % 16 * 16 + x3 / 4) :: (x3 % 4 * 64 + x4) :: bs)

/-- Base64 encoding without the '=' padding, i.e. the exact shape
btoa(x).replace(/=+$/, "") produces.  Not part of the source; used to
reason about stripEqs ∘ encodeB64. -/
def encodeB64NoPad : List Nat → List Char
  | [] => []
  | [b1] => [b64Char (b1 / 4), b64Char (b1 % 4 * 16)]
  | [b1, b2] => [b64Char (b1 / 4), b64Char (b1 % 4 * 16 + b2 / 16), b64Char (b2 % 16 * 4)]
  | b1 :: b2 :: b3 :: rest =>
      b64Char (b1 / 4) :: b64Char (b1 % 4 * 16 + b2 / 16) ::
      b64Char (b2 % 16 * 4 + b3 / 64) :: b64Char (b3 % 64) :: encodeB64NoPad rest

/-- Decoder for referral codes.  Not part of the source; it witnesses
that the code derivation is reversible. -/
def decodeReferralCode (code : String) : Option String :=
  (decodeB64NoPad code.data).map (fun bs => String.mk (bs.map Char.ofNat))

/-- One user record of the waitlist (type WaitlistUser in both source
variants): email, referral code, optional code of the referrer given at
signup, and the ordered list of referred emails. -/
structure WaitlistUser where
  email : String
  referralCode : String
  referredBy : Option String
  referrals : List String
deriving DecidableEq, Repr

/-- JSON values as produced by the builtin JSON.parse.  Numeric tokens
are kept as their lexeme: the store writes no numbers, and a numeric
field can never decode to a WaitlistUser, so their value is never
inspected. -/
inductive Json where
  | null
  | bool (b : Bool)
  | num (lexeme : String)
  | str (s : String)
  | arr (elems : List Json)
  | obj (members : List (String × Json))

/-- Whitespace accepted between JSON tokens. -/
def isJsonWs (c : Char) : Bool :=
  c == ' ' || c == '\t' || c == '\n' || c == '\r'

/-- Skips JSON whitespace. -/
def skipWs : List Char → List Char
  | [] => []
  | c :: cs => if isJsonWs c then skipWs cs else c :: cs

/-- Value of one hexadecimal digit. -/
def hexVal (c : Char) : Option Nat :=
  let n := c.toNat
  if 48 ≤ n ∧ n ≤ 57 then some (n - 48)
  else if 65 ≤ n ∧ n ≤ 70 then some (n - 55)
  else if 97 ≤ n ∧ n ≤ 102 then some (n - 87)
  else none

/-- Parses the body of a JSON string literal, positioned right after the
opening quote; returns the decoded characters and the input remaining
after the closing quote. -/
def parseStringBody : List Char → Option (List Char × List Char)
  | [] => none
  | c :: cs =>
    if c == '"' then some ([], cs)
    else if c == '\\' then
      match cs with
      | [] => none
      | e :: cs2 =>
        if e == '"' then (parseStringBody cs2).map (fun r => ('"' :: r.1, r.2))
        else if e == '\\' then (parseStringBody cs2).map (fun r => ('\\' :: r.1, r.2))
        else if e == '/' then (parseStringBody cs2).map (fun r => ('/' :: r.1, r.2))
        else if e == 'b' then (parseStringBody cs2).map (fun r => ('\x08' :: r.1, r.2))
        else if e == 'f' then (parseStringBody cs2).map (fun r => ('\x0c' :: r.1, r.2))
        else if e == 'n' then (parseStringBody cs2).map (fun r => ('\n' :: r.1, r.2))
        else if e == 'r' then (parseStringBody cs2).map (fun r => ('\r' :: r.1, r.2))
        else if e == 't' then (parseStringBody cs2).map (fun r => ('\t' :: r.1, r.2))
        else if e == 'u' then
          match cs2 with
          | h1 :: h2 :: h3 :: h4 :: cs3 =>
            match hexVal h1, hexVal h2, hexVal h3, hexVal h4 with
            | some a, some b, some c2, some d =>
              (parseStringBody cs3).map
                (fun r => (Char.ofNat (4096 * a + 256 * b + 16 * c2 + d) :: r.1, r.2))
            | _, _, _, _ => none
          | _ => none
        else none
    else if c.toNat < 32 then none
    else (parseStringBody cs).map (fun r => (c :: r.1, r.2))

/-- Characters a numeric token is made of.  The token is lexed greedily
and kept as a lexeme; its well-formedness is never needed because the
store never decodes numbers. -/
def isNumChar (c : Char) : Bool :=
  c.isDigit || c == '-' || c == '+' || c == '.' || c == 'e' || c == 'E'

mutual

/-- Parses one JSON value.  The fuel argument bounds the recursion and
is instantiated with more than the input length, which every recursive
call strictly shrinks. -/
def parseValue : Nat → List Char → Option (Json × List Char)
  | 0, _ => none
  | fuel + 1, cs =>
    match skipWs cs with
    | [] => none
    | c :: cs1 =>
      if c == '"' then (parseStringBody cs1).map (fun r => (Json.str (String.mk r.1), r.2))
      else if c == '[' then (parseElems fuel cs1).map (fun r => (Json.arr r.1, r.2))
      else if c == '\x7b' then (parseMembers fuel cs1).map (fun r => (Json.obj r.1, r.2))
      else if c == 'n' then
        match cs1 with
        | 'u' :: 'l' :: 'l' :: rest => some (Json.null, rest)
        | _ => none
      else if c == 't' then
        match cs1 with
        | 'r' :: 'u' :: 'e' :: rest => some (Json.bool true, rest)
        | _ => none
      else if c == 'f' then
        match cs1 with
        | 'a' :: 'l' :: 's' :: 'e' :: rest => some (Json.bool false, rest)
        | _ => none
      else if c == '-' || c.isDigit then
        some (Json.num (String.mk ((c :: cs1).takeWhile isNumChar)),
              (c :: cs1).dropWhile isNumChar)
      else none

/-- Parses the elements of a JSON array, positioned right after the
opening bracket. -/
def parseElems : Nat → List Char → Option (List Json × List Char)
  | 0, _ => none
  | fuel + 1, cs =>
    match skipWs cs with
    | ']' :: rest => some ([], rest)
    | cs1 => do
      let (v, r) ← parseValue fuel cs1
      let (vs, r2) ← parseElemsTail fuel r
      pure (v :: vs, r2)

/-- Parses ", value" continuations of a JSON array up to the closing
bracket. -/
def parseElemsTail : Nat → List Char → Option (List Json × List Char)
  | 0, _ => none
  | fuel + 1, cs =>
    match skipWs cs with
    | ']' :: rest => some ([], rest)
    | ',' :: rest => do
      let (v, r) ← parseValue fuel rest
      let (vs, r2) ← parseElemsTail fuel r
      pure (v :: vs, r2)
    | _ => none

/-- Parses one "key": value member of a JSON object. -/
def parseMember : Nat → List Char → Option ((String × Json) × List Char)
  | 0, _ => none
  | fuel + 1, cs =>
    match skipWs cs with
    | '"' :: cs1 => do
      let (k, r) ← parseStringBody cs1
      match skipWs r with
      | ':' :: r2 => do
        let (v, r3) ← parseValue fuel r2
        pure ((String.mk k, v), r3)
      | _ => none
    | _ => none

/-- Parses the members of a JSON object, positioned right after the
opening brace. -/
def parseMembers : Nat → List Char → Option (List (String × Json) × List Char)
  | 0, _ => none
  | fuel + 1, cs =>
    match skipWs cs with
    | '\x7d' :: rest => some ([], rest)
    | cs1 => do
      let (m, r) ← parseMember fuel cs1
      let (ms, r2) ← parseMembersTail fuel r
      pure (m :: ms, r2)

/-- Parses ", member" continuations of a JSON object up to the closing
brace. -/
def parseMembersTail : Nat → List Char → Option (List (String × Json) × List Char)
  | 0, _ => none
  | fuel + 1, cs =>
    match skipWs cs with
    | '\x7d' :: rest => some ([], rest)
    | ',' :: rest => do
      let (m, r) ← parseMember fuel rest
      let (ms, r2) ← parseMembersTail fuel r
      pure (m :: ms, r2)
    | _ => none

end

/-- Models the builtin JSON.parse: none when the input is not accepted
(the builtin throws a SyntaxError there). -/
def parseJson (s : String) : Option Json :=
  match parseValue (s.data.length + 1) s.data with
  | some (j, rest) => if (skipWs rest).isEmpty then some j else none
  | none => none

/-- Lowercase hexadecimal digit, as emitted by JSON.stringify escapes. -/
def hexDigit (n : Nat) : Char :=
  if n < 10 then Char.ofNat (48 + n) else Char.ofNat (87 + n)

/-- Escape of one character inside a JSON string literal, as emitted by
JSON.stringify: short escapes for quote, backslash and the usual control
characters, a unicode escape for the remaining control characters, and
the character itself otherwise. -/
def escapeChar (c : Char) : List Char :=
  if c == '"' then ['\\', '"']
  else if c == '\\' then ['\\', '\\']
  else if c == '\x08' then ['\\', 'b']
  else if c == '\t' then ['\\', 't']
  else if c == '\n' then ['\\', 'n']
  else if c == '\x0c' then ['\\', 'f']
  else if c == '\r' then ['\\', 'r']
  else if c.toNat < 32 then ['\\', 'u', '0', '0', hexDigit (c.toNat / 16), hexDigit (c.toNat % 16)]
  else [c]

/-- Escapes every character of a string body. -/
def escapeList : List Char → List Char
  | [] => []
  | c :: cs => escapeChar c ++ escapeList cs

/-- JSON.stringify of one string. -/
def stringifyStr (s : String) : List Char :=
  '"' :: (escapeList s.data ++ ['"'])

/-- Tail of JSON.stringify of an array of strings. -/
def strArrTail : List String → List Char
  | [] => [']']
  | s :: ss => ',' :: (stringifyStr s ++ strArrTail ss)

/-- JSON.stringify of an array of strings. -/
def stringifyStrArr : List String → List Char
  | [] => ['[', ']']
  | s :: ss => '[' :: (stringifyStr s ++ strArrTail ss)

/-- JSON.stringify of one user record.  Keys appear in the declaration
order of the object literal in addUser (email, referralCode, referredBy,
referrals); a referredBy holding undefined is omitted entirely, exactly
as JSON.stringify omits undefined-valued properties. -/
def stringifyUser (u : WaitlistUser) : List Char :=
  '\x7b' :: (stringifyStr "email" ++ ':' :: stringifyStr u.email
    ++ ',' :: (stringifyStr "referralCode" ++ ':' :: stringifyStr u.referralCode)
    ++ (match u.referredBy with
        | none => []
        | some r => ',' :: (stringifyStr "referredBy" ++ ':' :: stringifyStr r))
    ++ ',' :: (stringifyStr "referrals" ++ ':' :: stringifyStrArr u.referrals)
    ++ ['\x7d'])

/-- Tail of JSON.stringify of the user array. -/
def usersTail : List WaitlistUser → List Char
  | [] => [']']
  | u :: us => ',' :: (stringifyUser u ++ usersTail us)

/-- JSON.stringify of the user array. -/
def stringifyUsers : List WaitlistUser → List Char
  | [] => ['[', ']']
  | u :: us => '[' :: (stringifyUser u ++ usersTail us)

/-- The JSON value JSON.parse rebuilds from a serialized user. -/
def encodeUser (u : WaitlistUser) : Json :=
  Json.obj (("email", Json.str u.email) :: ("referralCode", Json.str u.referralCode) ::
    ((match u.referredBy with
      | none => []
      | some r => [("referredBy", Json.str r)])
     ++ [("referrals", Json.arr (u.referrals.map Json.str))]))

/-- Reads a JSON string value. -/
def asString : Json → Option String
  | Json.str s => some s
  | _ => none

/-- Reads a JSON array of strings. -/
def decodeStrList : Json → Option (List String)
  | Json.arr js => js.mapM asString
  | _ => none

/-- Canonical record shape of one persisted user: the exact JSON object
JSON.stringify produces for a WaitlistUser in addUser (keys in
declaration order, referredBy omitted when undefined).  Not part of the
source — the source performs no validation at all (the JSON.parse result
is cast to WaitlistUser[] and used as it is; see getWaitlistValue for
that raw value).  decodeUser j = some u holds exactly when j is the
serialization of u, so this is the typed view under which store-written
blobs are read back; a blob of any other JSON shape (junk elements,
reordered keys, foreign writers) is not canonically a waitlist, even
though the source would return it unvalidated. -/
def decodeUser : Json → Option WaitlistUser
  | Json.obj [("email", Json.str e), ("referralCode", Json.str rc), ("referrals", refs)] =>
      (decodeStrList refs).map (fun rs => ⟨e, rc, none, rs⟩)
  | Json.obj [("email", Json.str e), ("referralCode", Json.str rc),
              ("referredBy", Json.str rb), ("referrals", refs)] =>
      (decodeStrList refs).map (fun rs => ⟨e, rc, some rb, rs⟩)
  | _ => none

/-- Canonical-shape view of a whole parsed waitlist (see decodeUser). -/
def decodeUsers : Json → Option (List WaitlistUser)
  | Json.arr js => js.mapM decodeUser
  | _ => none

/-- The contents of the localStorage slot "waitlist_users": none models
an absent key. -/
abbrev Store := Option String

/-- The list of users a blob canonically encodes, if any: JSON.parse
composed with the canonical-shape view.  Not part of the source; it
expresses "this blob is (a serialization of) the waitlist l". -/
def parseWaitlist (s : String) : Option (List WaitlistUser) :=
  (parseJson s).bind decodeUsers

/-- The value the source's getWaitlist (lines 19-26 of src/src/App.tsx,
lines 18-25 of src/unnamed/part_000) actually returns, before the
WaitlistUser[] return-type annotation — which is erased at runtime — is
applied: [] when the key is absent or the stored text is falsy, [] when
JSON.parse throws (the try/catch), and otherwise the JSON.parse result
verbatim, with no validation of its shape whatsoever.  A blob such as
"[5]" is served as the junk array [5], not as an empty waitlist. -/
def getWaitlistValue (st : Store) : Json :=
  match st with
  | none => Json.arr []
  | some s => if s.isEmpty then Json.arr [] else (parseJson s).getD (Json.arr [])

/-- The typed view of the source's getWaitlist: getWaitlistValue read
under the declared WaitlistUser[] return type.  On every state the store
itself writes this is exact — a saved waitlist reads back as itself
(getWaitlist_saveWaitlist), and getWaitlist st is getWaitlistValue st
read through decodeUsers (getWaitlist_decode_getWaitlistValue).  On a
blob that is valid JSON but not canonically a waitlist, the source
returns the raw junk value unvalidated: getWaitlistValue, not this typed
view, is authoritative there. -/
def getWaitlist (st : Store) : List WaitlistUser :=
  match st with
  | none => []
  | some s => if s.isEmpty then [] else (parseWaitlist s).getD []

/-- Lines 28-30 of src/src/App.tsx: writes the serialized array into the
slot, replacing whatever was there. -/
def saveWaitlist (users : List WaitlistUser) : Store :=
  some (String.mk (stringifyUsers users))

/-- Lines 15-17 of src/src/App.tsx: btoa(email).replace(/=+$/, "").
The btoa call throws (none) when the email has a code point above
U+00FF. -/
def generateReferralCode (email : String) : Option String :=
  (btoa email).map (fun s => String.mk (stripEqs s.data))

/-- Lines 32-34 of src/src/App.tsx: first user whose lowercased email
equals the lowercased argument.  Re-reads the store on every call. -/
def findUserByEmail (email : String) (st : Store) : Option WaitlistUser :=
  (getWaitlist st).find? (fun u => jsToLower u.email == jsToLower email)

/-- Lines 36-38 of src/src/App.tsx: first user whose referralCode equals
the argument exactly.  Re-reads the store on every call. -/
def findUserByCode (code : String) (st : Store) : Option WaitlistUser :=
  (getWaitlist st).find? (fun u => u.referralCode == code)

/-- Return shape of addUser: the user plus an optional error string. -/
structure AddResult where
  user : WaitlistUser
  error : Option String
deriving DecidableEq, Repr

/-- The update addUser performs on the referrer inside the if-block of
lines 54-59 of src/src/App.tsx.  Crucially, the referrer object there
comes from findUserByCode, which re-reads and re-parses the store, so it
belongs to a fresh copy of the waitlist: pushing onto referrer.referrals
mutates only that copy, which is dropped when addUser returns.  The
guard also shows the JS truthiness test: an empty referredByCode string
is falsy and skips the block. -/
def referrerCopyUpdate (email : String) (referredByCode : Option String) (st : Store) :
    Option WaitlistUser :=
  match referredByCode with
  | none => none
  | some rc =>
    if rc == "" then none
    else
      match findUserByCode rc st with
      | none => none
      | some referrer =>
        if referrer.referrals.contains email then some referrer
        else some { referrer with referrals := referrer.referrals ++ [email] }

/-- Lines 40-62 of src/src/App.tsx.  Reads the waitlist, returns the
existing record tagged with an error string when the email is already
present (case-insensitively), otherwise derives the referral code
(btoa can throw here: none), appends the new record to the local copy,
performs the referral push on a separate fresh copy (see
referrerCopyUpdate: that copy is discarded), and saves the local copy. -/
def addUser (email : String) (referredByCode : Option String) (st : Store) :
    Option (AddResult × Store) :=
  let waitlist := getWaitlist st
  match findUserByEmail email st with
  | some existing => some (⟨existing, some "This email is already on the waitlist."⟩, st)
  | none =>
    match generateReferralCode email with
    | none => none
    | some referralCode =>
      let user : WaitlistUser := ⟨email, referralCode, referredByCode, []⟩
      let waitlist := waitlist ++ [user]
      let _ := referrerCopyUpdate email referredByCode st
      some (⟨user, none⟩, saveWaitlist waitlist)

/-- Lines 64-66 of src/src/App.tsx. -/
def getReferralCount (user : WaitlistUser) : Nat :=
  user.referrals.length

/-- The comparator passed to Array.prototype.sort on line 71 of
src/src/App.tsx: getReferralCount(b) - getReferralCount(a); the source
then returns 0 when the difference is 0, which is the same value. -/
def rankCmp (a b : WaitlistUser) : Int :=
  (getReferralCount b : Int) - (getReferralCount a : Int)

/-- Models Array.prototype.findIndex: index of the first match, -1 when
there is none. -/
def jsFindIndex (p : WaitlistUser → Bool) (l : List WaitlistUser) : Int :=
  match l.findIdx? p with
  | some i => (i : Int)
  | none => -1

/-- Lines 68-76 of src/src/App.tsx.  Array.prototype.sort with a
consistent comparator cmp is specified (ECMAScript 2019 and later) as
the stable order that puts a before b exactly when cmp a b ≤ 0; with
cmp = rankCmp that order is realized by mergeSort with the total
transitive relation fun a b => rankCmp a b ≤ 0.  The rank is 1 plus the
findIndex of the first user carrying the same email string (exact
comparison). -/
def getUserRank (user : WaitlistUser) (st : Store) : Int :=
  let waitlist := getWaitlist st
  let sorted := waitlist.mergeSort (fun a b => decide (rankCmp a b ≤ 0))
  jsFindIndex (fun u => u.email == user.email) sorted + 1

namespace Alt

/-!
The second source variant, src/unnamed/part_000, lines 14-75.  Its store
functions are character-identical to those of src/src/App.tsx; they are
embedded here again, against shared models of the browser builtins
(btoa, JSON, localStorage, toLowerCase) and the shared record types,
which model the same TypeScript declarations.
-/

/-- Lines 14-16 of src/unnamed/part_000. -/
def generateReferralCode (email : String) : Option String :=
  (btoa email).map (fun s => String.mk (stripEqs s.data))

/-- Typed view of getWaitlist, lines 18-25 of src/unnamed/part_000
(character-identical to the first variant; the raw unvalidated return
value is likewise getWaitlistValue, shared above). -/
def getWaitlist (st : Store) : List WaitlistUser :=
  match st with
  | none => []
  | some s => if s.isEmpty then [] else (parseWaitlist s).getD []

/-- Lines 27-29 of src/unnamed/part_000. -/
def saveWaitlist (users : List WaitlistUser) : Store :=
  some (String.mk (stringifyUsers users))

/-- Lines 31-33 of src/unnamed/part_000. -/
def findUserByEmail (email : String) (st : Store) : Option WaitlistUser :=
  (Alt.getWaitlist st).find? (fun u => jsToLower u.email == jsToLower email)

/-- Lines 35-37 of src/unnamed/part_000. -/
def findUserByCode (code : String) (st : Store) : Option WaitlistUser :=
  (Alt.getWaitlist st).find? (fun u => u.referralCode == code)

/-- The discarded referrer update inside lines 53-58 of
src/unnamed/part_000 (see referrerCopyUpdate above). -/
def referrerCopyUpdate (email : String) (referredByCode : Option String) (st : Store) :
    Option WaitlistUser :=
  match referredByCode with
  | none => none
  | some rc =>
    if rc == "" then none
    else
      match Alt.findUserByCode rc st with
      | none => none
      | some referrer =>
        if referrer.referrals.contains email then some referrer
        else some { referrer with referrals := referrer.referrals ++ [email] }

/-- Lines 39-61 of src/unnamed/part_000. -/
def addUser (email : String) (referredByCode : Option String) (st : Store) :
    Option (AddResult × Store) :=
  let waitlist := Alt.getWaitlist st
  match Alt.findUserByEmail email st with
  | some existing => some (⟨existing, some "This email is already on the waitlist."⟩, st)
  | none =>
    match Alt.generateReferralCode email with
    | none => none
    | some referralCode =>
      let user : WaitlistUser := ⟨email, referralCode, referredByCode, []⟩
      let waitlist := waitlist ++ [user]
      let _ := Alt.referrerCopyUpdate email referredByCode st
      some (⟨user, none⟩, Alt.saveWaitlist waitlist)

/-- Lines 63-65 of src/unnamed/part_000. -/
def getReferralCount (user : WaitlistUser) : Nat :=
  user.referrals.length

/-- Lines 67-75 of src/unnamed/part_000. -/
def getUserRank (user : WaitlistUser) (st : Store) : Int :=
  let waitlist := Alt.getWaitlist st
  let sorted := waitlist.mergeSort
    (fun a b => decide ((Alt.getReferralCount b : Int) - (Alt.getReferralCount a : Int) ≤ 0))
  jsFindIndex (fun u => u.email == user.email) sorted + 1

end Alt

example : parseJson "[]" = some (Json.arr []) := rfl
example : parseJson "[" = none := rfl
example : getWaitlist (saveWaitlist []) = [] := by decide
example :
    getWaitlist (saveWaitlist [⟨"a@x.com", "YQ", none, []⟩]) =
      [⟨"a@x.com", "YQ", none, []⟩] := by decide

/-!
Lemmas about the base64 layer: the padding-stripped encoding used for
referral codes is reversible.
-/

theorem b64Char_spec : ∀ k : Fin 64, b64Val (b64Char k.val) = some k.val ∧ b64Char k.val ≠ '=' := by
  decide

theorem b64Val_b64Char {k : Nat} (h : k < 64) : b64Val (b64Char k) = some k :=
  (b64Char_spec ⟨k, h⟩).1

theorem b64Char_ne_pad {k : Nat} (h : k < 64) : b64Char k ≠ '=' :=
  (b64Char_spec ⟨k, h⟩).2

theorem encodeB64NoPad_ne_nil {bs : List Nat} (h : bs ≠ []) : encodeB64NoPad bs ≠ [] := by
  match bs, h with
  | [b1], _ => simp [encodeB64NoPad]
  | [b1, b2], _ => simp [encodeB64NoPad]
  | b1 :: b2 :: b3 :: rest, _ => simp [encodeB64NoPad]

theorem stripEqs_encodeB64 : ∀ bs : List Nat, stripEqs (encodeB64 bs) = encodeB64NoPad bs
  | [] => by simp [stripEqs, encodeB64, encodeB64NoPad]
  | [b1] => by
    have h2 : (b64Char (b1 % 4 * 16) == '=') = false := by
      simpa using @b64Char_ne_pad (b1 % 4 * 16) (by omega)
    simp [stripEqs, encodeB64, encodeB64NoPad, List.dropWhile, h2]
  | [b1, b2] => by
    have h3 : (b64Char (b2 % 16 * 4) == '=') = false := by
      simpa using @b64Char_ne_pad (b2 % 16 * 4) (by omega)
    simp [stripEqs, encodeB64, encodeB64NoPad, List.dropWhile, h3]
  | b1 :: b2 :: b3 :: rest => by
    have h4 : (b64Char (b3 % 64) == '=') = false := by
      simpa using @b64Char_ne_pad (b3 % 64) (by omega)
    have ih := stripEqs_encodeB64 rest
    rcases eq_or_ne rest [] with hrest | hrest
    · subst hrest
      simp [stripEqs, encodeB64, encodeB64NoPad, List.dropWhile, h4]
    · have hne : encodeB64NoPad rest ≠ [] := encodeB64NoPad_ne_nil hrest
      have hdrop : (encodeB64 rest).reverse.dropWhile (fun c => c == '=') =
          (encodeB64NoPad rest).reverse := by
        have : ((encodeB64 rest).reverse.dropWhile (fun c => c == '=')).reverse =
            encodeB64NoPad rest := ih
        calc (encodeB64 rest).reverse.dropWhile (fun c => c == '=')
            = (((encodeB64 rest).reverse.dropWhile (fun c => c == '=')).reverse).reverse := by
              rw [List.reverse_reverse]
          _ = (encodeB64NoPad rest).reverse := by rw [this]
      have hnotEmpty : ((encodeB64 rest).reverse.dropWhile (fun c => c == '=')).isEmpty = false := by
        rw [hdrop]
        simpa [List.isEmpty_iff] using hne
      show stripEqs (encodeB64 (b1 :: b2 :: b3 :: rest)) = _
      rw [show encodeB64 (b1 :: b2 :: b3 :: rest) =
        [b64Char (b1 / 4), b64Char (b1 % 4 * 16 + b2 / 16),
         b64Char (b2 % 16 * 4 + b3 / 64), b64Char (b3 % 64)] ++ encodeB64 rest from rfl]
      rw [show encodeB64NoPad (b1 :: b2 :: b3 :: rest) =
        [b64Char (b1 / 4), b64Char (b1 % 4 * 16 + b2 / 16),
         b64Char (b2 % 16 * 4 + b3 / 64), b64Char (b3 % 64)] ++ encodeB64NoPad rest from rfl]
      unfold stripEqs
      rw [List.reverse_append, List.dropWhile_append, hnotEmpty, hdrop]
      simp

theorem decodeB64NoPad_encodeB64NoPad :
    ∀ bs : List Nat, (∀ b ∈ bs, b < 256) → decodeB64NoPad (encodeB64NoPad bs) = some bs
  | [], _ => by simp [encodeB64NoPad, decodeB64NoPad]
  | [b1], h => by
    have hb1 : b1 < 256 := h b1 (by simp)
    rw [show encodeB64NoPad [b1] = [b64Char (b1 / 4), b64Char (b1 % 4 * 16)] from rfl]
    rw [show decodeB64NoPad [b64Char (b1 / 4), b64Char (b1 % 4 * 16)] = do
        let x1 ← b64Val (b64Char (b1 / 4))
        let x2 ← b64Val (b64Char (b1 % 4 * 16))
        pure [x1 * 4 + x2 / 16] from rfl]
    rw [b64Val_b64Char (by omega), b64Val_b64Char (by omega)]
    show some [b1 / 4 * 4 + b1 % 4 * 16 / 16] = some [b1]
    have : b1 / 4 * 4 + b1 % 4 * 16 / 16 = b1 := by omega
    rw [this]
  | [b1, b2], h => by
    have hb1 : b1 < 256 := h b1 (by simp)
    have hb2 : b2 < 256 := h b2 (by simp)
    rw [show encodeB64NoPad [b1, b2] =
      [b64Char (b1 / 4), b64Char (b1 % 4 * 16 + b2 / 16), b64Char (b2 % 16 * 4)] from rfl]
    rw [show decodeB64NoPad
        [b64Char (b1 / 4), b64Char (b1 % 4 * 16 + b2 / 16), b64Char (b2 % 16 * 4)] = do
        let x1 ← b64Val (b64Char (b1 / 4))
        let x2 ← b64Val (b64Char (b1 % 4 * 16 + b2 / 16))
        let x3 ← b64Val (b64Char (b2 % 16 * 4))
        pure [x1 * 4 + x2 / 16, x2 % 16 * 16 + x3 / 4] from rfl]
    rw [b64Val_b64Char (by omega), b64Val_b64Char (by omega), b64Val_b64Char (by omega)]
    show some [b1 / 4 * 4 + (b1 % 4 * 16 + b2 / 16) / 16,
      (b1 % 4 * 16 + b2 / 16) % 16 * 16 + b2 % 16 * 4 / 4] = some [b1, b2]
    have e1 : b1 / 4 * 4 + (b1 % 4 * 16 + b2 / 16) / 16 = b1 := by omega
    have e2 : (b1 % 4 * 16 + b2 / 16) % 16 * 16 + b2 % 16 * 4 / 4 = b2 := by omega
    rw [e1, e2]
  | b1 :: b2 :: b3 :: rest, h => by
    have hb1 : b1 < 256 := h b1 (by simp)
    have hb2 : b2 < 256 := h b2 (by simp)
    have hb3 : b3 < 256 := h b3 (by simp)
    have ih := decodeB64NoPad_encodeB64NoPad rest (fun b hb => h b (by simp [hb]))
    rw [show encodeB64NoPad (b1 :: b2 :: b3 :: rest) =
      b64Char (b1 / 4) :: b64Char (b1 % 4 * 16 + b2 / 16) ::
      b64Char (b2 % 16 * 4 + b3 / 64) :: b64Char (b3 % 64) :: encodeB64NoPad rest from rfl]
    rw [show decodeB64NoPad (b64Char (b1 / 4) :: b64Char (b1 % 4 * 16 + b2 / 16) ::
        b64Char (b2 % 16 * 4 + b3 / 64) :: b64Char (b3 % 64) :: encodeB64NoPad rest) = do
        let x1 ← b64Val (b64Char (b1 / 4))
        let x2 ← b64Val (b64Char (b1 % 4 * 16 + b2 / 16))
        let x3 ← b64Val (b64Char (b2 % 16 * 4 + b3 / 64))
        let x4 ← b64Val (b64Char (b3 % 64))
        let bs ← decodeB64NoPad (encodeB64NoPad rest)
        pure ((x1 * 4 + x2 / 16) :: (x2 % 16 * 16 + x3 / 4) :: (x3 % 4 * 64 + x4) :: bs)
        from ?_]
    · rw [b64Val_b64Char (by omega), b64Val_b64Char (by omega), b64Val_b64Char (by omega),
        b64Val_b64Char (by omega), ih]
      show some ((b1 / 4 * 4 + (b1 % 4 * 16 + b2 / 16) / 16) ::
        ((b1 % 4 * 16 + b2 / 16) % 16 * 16 + (b2 % 16 * 4 + b3 / 64) / 4) ::
        ((b2 % 16 * 4 + b3 / 64) % 4 * 64 + b3 % 64) :: rest) = some (b1 :: b2 :: b3 :: rest)
      have e1 : b1 / 4 * 4 + (b1 % 4 * 16 + b2 / 16) / 16 = b1 := by omega
      have e2 : (b1 % 4 * 16 + b2 / 16) % 16 * 16 + (b2 % 16 * 4 + b3 / 64) / 4 = b2 := by omega
      have e3 : (b2 % 16 * 4 + b3 / 64) % 4 * 64 + b3 % 64 = b3 := by omega
      rw [e1, e2, e3]
    · rfl

theorem decodeReferralCode_generateReferralCode (e code : String)
    (h : generateReferralCode e = some code) : decodeReferralCode code = some e := by
  unfold generateReferralCode btoa at h
  by_cases hall : e.data.all (fun c => c.toNat ≤ 255)
  · rw [if_pos hall] at h
    simp only [Option.map_some'] at h
    have hc := Option.some.inj h
    subst hc
    have hbound : ∀ b ∈ e.data.map Char.toNat, b < 256 := by
      intro b hb
      rcases List.mem_map.mp hb with ⟨c, hc, rfl⟩
      have := List.all_eq_true.mp hall c hc
      simpa using Nat.lt_succ_of_le (by simpa using this)
    show (decodeB64NoPad (stripEqs (encodeB64 (e.data.map Char.toNat)))).map _ = some e
    rw [stripEqs_encodeB64, decodeB64NoPad_encodeB64NoPad _ hbound]
    simp only [Option.map_some']
    congr 1
    rw [List.map_map]
    have : e.data.map (Char.ofNat ∘ Char.toNat) = e.data.map id := by
      apply List.map_congr_left
      intro c _
      exact Char.ofNat_toNat c
    rw [this, List.map_id]
  · rw [if_neg hall] at h
    simp at h

/-!
Lemmas about the JSON layer: a serialized waitlist parses back to
itself.
-/

theorem hexVal_hexDigit_fin : ∀ k : Fin 16, hexVal (hexDigit k.val) = some k.val := by decide

theorem hexVal_hexDigit {k : Nat} (h : k < 16) : hexVal (hexDigit k) = some k :=
  hexVal_hexDigit_fin ⟨k, h⟩

theorem parseStringBody_escapeList :
    ∀ (cs rest : List Char), parseStringBody (escapeList cs ++ '"' :: rest) = some (cs, rest)
  | [], rest => by
    simp only [escapeList, List.nil_append]
    rw [parseStringBody.eq_def]
    simp
  | c :: cs, rest => by
    have ih := parseStringBody_escapeList cs rest
    have hassoc : escapeList (c :: cs) ++ '"' :: rest =
        escapeChar c ++ (escapeList cs ++ '"' :: rest) := by
      simp [escapeList, List.append_assoc]
    rw [hassoc]
    by_cases h1 : c = '"'
    · subst h1
      simp only [escapeChar, beq_self_eq_true, if_true, ite_true, List.cons_append,
        List.nil_append]
      rw [parseStringBody.eq_def]
      simp [ih]
    · by_cases h2 : c = '\\'
      · subst h2
        simp only [escapeChar]
        norm_num
        rw [parseStringBody.eq_def]
        simp [ih]
      · by_cases h3 : c = '\x08'
        · subst h3
          simp only [escapeChar]
          norm_num
          rw [parseStringBody.eq_def]
          simp [ih]
        · by_cases h4 : c = '\t'
          · subst h4
            simp only [escapeChar]
            norm_num
            rw [parseStringBody.eq_def]
            simp [ih]
          · by_cases h5 : c = '\n'
            · subst h5
              simp only [escapeChar]
              norm_num
              rw [parseStringBody.eq_def]
              simp [ih]
            · by_cases h6 : c = '\x0c'
              · subst h6
                simp only [escapeChar]
                norm_num
                rw [parseStringBody.eq_def]
                simp [ih]
              · by_cases h7 : c = '\r'
                · subst h7
                  simp only [escapeChar]
                  norm_num
                  rw [parseStringBody.eq_def]
                  simp [ih]
                · by_cases h8 : c.toNat < 32
                  · have hdiv : c.toNat / 16 < 16 := by omega
                    have hmod : c.toNat % 16 < 16 := by omega
                    have harith : 4096 * 0 + 256 * 0 + 16 * (c.toNat / 16) + c.toNat % 16 =
                        c.toNat := by omega
                    have hesc : escapeChar c = ['\\', 'u', '0', '0',
                        hexDigit (c.toNat / 16), hexDigit (c.toNat % 16)] := by
                      simp [escapeChar, h1, h2, h3, h4, h5, h6, h7, h8]
                    rw [hesc]
                    simp only [List.cons_append, List.nil_append]
                    rw [parseStringBody.eq_def]
                    have h0 : hexVal '0' = some 0 := by decide
                    simp only [List.cons_append]
                    simp [h0, hexVal_hexDigit hdiv, hexVal_hexDigit hmod, ih]
                    rw [show 16 * (c.toNat / 16) + c.toNat % 16 = c.toNat from by omega,
                      Char.ofNat_toNat]
                  · have hesc : escapeChar c = [c] := by
                      simp [escapeChar, h1, h2, h3, h4, h5, h6, h7, h8]
                    rw [hesc]
                    simp only [List.cons_append, List.nil_append]
                    rw [parseStringBody.eq_def]
                    simp [h1, h2, h8, ih]

theorem skipWs_cons {c : Char} {cs : List Char} (h : isJsonWs c = false) :
    skipWs (c :: cs) = c :: cs := by
  rw [skipWs.eq_def]
  simp [h]

theorem String.mk_data (s : String) : String.mk s.data = s := rfl

theorem parseValue_stringifyStr (s : String) (rest : List Char) (fuel : Nat) (h : 1 ≤ fuel) :
    parseValue fuel (stringifyStr s ++ rest) = some (Json.str s, rest) := by
  obtain ⟨f, rfl⟩ : ∃ f, fuel = f + 1 := ⟨fuel - 1, by omega⟩
  rw [parseValue.eq_def]
  simp only [stringifyStr, List.cons_append, List.append_assoc, List.nil_append]
  rw [skipWs_cons (by decide)]
  simp [parseStringBody_escapeList, String.mk_data]

theorem parseElemsTail_strArrTail :
    ∀ (ss : List String) (rest : List Char) (fuel : Nat), ss.length + 1 ≤ fuel →
      parseElemsTail fuel (strArrTail ss ++ rest) = some (ss.map Json.str, rest)
  | [], rest, fuel, h => by
    obtain ⟨f, rfl⟩ : ∃ f, fuel = f + 1 := ⟨fuel - 1, by omega⟩
    rw [parseElemsTail.eq_def]
    simp only [strArrTail, List.cons_append, List.nil_append]
    rw [skipWs_cons (by decide)]
    simp
  | s :: ss, rest, fuel, h => by
    obtain ⟨f, rfl⟩ : ∃ f, fuel = f + 1 := ⟨fuel - 1, by omega⟩
    have hlen : ss.length + 1 ≤ f := by
      simp only [List.length_cons] at h
      omega
    have ih := parseElemsTail_strArrTail ss rest f hlen
    have hs := parseValue_stringifyStr s (strArrTail ss ++ rest) f (by omega)
    rw [parseElemsTail.eq_def]
    simp only [strArrTail, List.cons_append, List.append_assoc, List.nil_append]
    rw [skipWs_cons (by decide)]
    simp only [List.append_assoc] at hs
    simp [hs, ih]

theorem parseValue_stringifyStrArr :
    ∀ (ss : List String) (rest : List Char) (fuel : Nat), ss.length + 2 ≤ fuel →
      parseValue fuel (stringifyStrArr ss ++ rest) = some (Json.arr (ss.map Json.str), rest)
  | [], rest, fuel, h => by
    obtain ⟨f, rfl⟩ : ∃ f, fuel = f + 2 := ⟨fuel - 2, by omega⟩
    have hw : skipWs (']' :: rest) = ']' :: rest := skipWs_cons (by decide)
    have he : parseElems (f + 1) (']' :: rest) = some ([], rest) := by
      rw [parseElems.eq_def]
      simp [hw]
    rw [parseValue.eq_def]
    simp only [stringifyStrArr, List.cons_append, List.nil_append]
    rw [skipWs_cons (by decide)]
    simp [he]
  | s :: ss, rest, fuel, h => by
    obtain ⟨f, rfl⟩ : ∃ f, fuel = f + 2 := ⟨fuel - 2, by omega⟩
    have hlen : ss.length + 1 ≤ f := by
      simp only [List.length_cons] at h
      omega
    have helems : parseElems (f + 1) (stringifyStr s ++ (strArrTail ss ++ rest)) =
        some ((s :: ss).map Json.str, rest) := by
      have hnws : skipWs (stringifyStr s ++ (strArrTail ss ++ rest)) =
          stringifyStr s ++ (strArrTail ss ++ rest) := by
        simp only [stringifyStr, List.cons_append]
        exact skipWs_cons (by decide)
      have hs := parseValue_stringifyStr s (strArrTail ss ++ rest) f (by omega)
      have ht := parseElemsTail_strArrTail ss rest f hlen
      rw [parseElems.eq_def]
      simp only [hnws]
      simp only [stringifyStr, List.cons_append]
      simp only [stringifyStr, List.cons_append, List.append_assoc, List.nil_append] at hs
      simp [hs, ht]
    rw [parseValue.eq_def]
    simp only [stringifyStrArr, List.cons_append, List.append_assoc, List.nil_append]
    rw [skipWs_cons (by decide)]
    simp only [List.append_assoc] at helems
    simp [helems]

theorem parseMember_str (k s : String) (rest : List Char) (fuel : Nat) (h : 2 ≤ fuel) :
    parseMember fuel (stringifyStr k ++ ':' :: (stringifyStr s ++ rest)) =
      some ((k, Json.str s), rest) := by
  obtain ⟨f, rfl⟩ : ∃ f, fuel = f + 1 := ⟨fuel - 1, by omega⟩
  have hbody := parseStringBody_escapeList k.data (':' :: (stringifyStr s ++ rest))
  have hv := parseValue_stringifyStr s rest f (by omega)
  rw [parseMember.eq_def]
  simp only [stringifyStr, List.cons_append, List.append_assoc, List.nil_append] at hbody hv ⊢
  rw [skipWs_cons (by decide)]
  simp [hbody, skipWs_cons (show isJsonWs ':' = false from by decide), hv, String.mk_data]

theorem parseMember_strArr (k : String) (ss : List String) (rest : List Char) (fuel : Nat)
    (h : ss.length + 3 ≤ fuel) :
    parseMember fuel (stringifyStr k ++ ':' :: (stringifyStrArr ss ++ rest)) =
      some ((k, Json.arr (ss.map Json.str)), rest) := by
  obtain ⟨f, rfl⟩ : ∃ f, fuel = f + 1 := ⟨fuel - 1, by omega⟩
  have hbody := parseStringBody_escapeList k.data (':' :: (stringifyStrArr ss ++ rest))
  have hv := parseValue_stringifyStrArr ss rest f (by omega)
  rw [parseMember.eq_def]
  simp only [stringifyStr, List.cons_append, List.append_assoc, List.nil_append] at hbody hv ⊢
  rw [skipWs_cons (by decide)]
  simp [hbody, skipWs_cons (show isJsonWs ':' = false from by decide), hv, String.mk_data]

theorem parseMembersTail_close (rest : List Char) (fuel : Nat) (h : 1 ≤ fuel) :
    parseMembersTail fuel ('\x7d' :: rest) = some ([], rest) := by
  obtain ⟨f, rfl⟩ : ∃ f, fuel = f + 1 := ⟨fuel - 1, by omega⟩
  rw [parseMembersTail.eq_def]
  simp [skipWs_cons (show isJsonWs '\x7d' = false from by decide)]

theorem parseValue_stringifyUser (u : WaitlistUser) (rest : List Char) (fuel : Nat)
    (h : u.referrals.length + 8 ≤ fuel) :
    parseValue fuel (stringifyUser u ++ rest) = some (encodeUser u, rest) := by
  rcases u with ⟨em, rc, rb, refs⟩
  simp only at h
  rcases rb with _ | r
  · obtain ⟨t2, rfl⟩ : ∃ t, fuel = t + 4 := ⟨fuel - 4, by omega⟩
    have h_close : parseMembersTail t2 ('\x7d' :: rest) = some ([], rest) :=
      parseMembersTail_close rest t2 (by omega)
    have h_m3 := parseMember_strArr "referrals" refs ('\x7d' :: rest) t2 (by omega)
    have h_t2 : parseMembersTail (t2 + 1)
        (',' :: (stringifyStr "referrals" ++ ':' :: (stringifyStrArr refs ++ '\x7d' :: rest))) =
        some ([("referrals", Json.arr (refs.map Json.str))], rest) := by
      rw [parseMembersTail.eq_def]
      simp only [stringifyStr, List.cons_append, List.append_assoc, List.nil_append] at h_m3 ⊢
      rw [skipWs_cons (by decide)]
      simp [h_m3, h_close]
    have h_m2 := parseMember_str "referralCode" rc
      (',' :: (stringifyStr "referrals" ++ ':' :: (stringifyStrArr refs ++ '\x7d' :: rest)))
      (t2 + 1) (by omega)
    have h_t1 : parseMembersTail (t2 + 2)
        (',' :: (stringifyStr "referralCode" ++ ':' :: (stringifyStr rc ++
          ',' :: (stringifyStr "referrals" ++ ':' :: (stringifyStrArr refs ++ '\x7d' :: rest))))) =
        some ([("referralCode", Json.str rc),
               ("referrals", Json.arr (refs.map Json.str))], rest) := by
      rw [parseMembersTail.eq_def]
      simp only [stringifyStr, List.cons_append, List.append_assoc, List.nil_append]
        at h_m2 h_t2 ⊢
      rw [skipWs_cons (by decide)]
      simp [h_m2, h_t2]
    have h_m1 := parseMember_str "email" em
      (',' :: (stringifyStr "referralCode" ++ ':' :: (stringifyStr rc ++
        ',' :: (stringifyStr "referrals" ++ ':' :: (stringifyStrArr refs ++ '\x7d' :: rest)))))
      (t2 + 2) (by omega)
    have h_members : parseMembers (t2 + 3)
        (stringifyStr "email" ++ ':' :: (stringifyStr em ++
          ',' :: (stringifyStr "referralCode" ++ ':' :: (stringifyStr rc ++
            ',' :: (stringifyStr "referrals" ++ ':' ::
              (stringifyStrArr refs ++ '\x7d' :: rest)))))) =
        some ([("email", Json.str em), ("referralCode", Json.str rc),
               ("referrals", Json.arr (refs.map Json.str))], rest) := by
      rw [parseMembers.eq_def]
      simp only [stringifyStr, List.cons_append, List.append_assoc, List.nil_append]
        at h_m1 h_t1 ⊢
      rw [skipWs_cons (by decide)]
      simp [h_m1, h_t1]
    rw [parseValue.eq_def]
    simp only [stringifyUser, encodeUser, stringifyStr, List.cons_append, List.append_assoc,
      List.nil_append] at h_members ⊢
    rw [skipWs_cons (by decide)]
    simp [h_members]
  · obtain ⟨t3, rfl⟩ : ∃ t, fuel = t + 5 := ⟨fuel - 5, by omega⟩
    have h_close : parseMembersTail t3 ('\x7d' :: rest) = some ([], rest) :=
      parseMembersTail_close rest t3 (by omega)
    have h_m4 := parseMember_strArr "referrals" refs ('\x7d' :: rest) t3 (by omega)
    have h_t3 : parseMembersTail (t3 + 1)
        (',' :: (stringifyStr "referrals" ++ ':' :: (stringifyStrArr refs ++ '\x7d' :: rest))) =
        some ([("referrals", Json.arr (refs.map Json.str))], rest) := by
      rw [parseMembersTail.eq_def]
      simp only [stringifyStr, List.cons_append, List.append_assoc, List.nil_append] at h_m4 ⊢
      rw [skipWs_cons (by decide)]
      simp [h_m4, h_close]
    have h_m3 := parseMember_str "referredBy" r
      (',' :: (stringifyStr "referrals" ++ ':' :: (stringifyStrArr refs ++ '\x7d' :: rest)))
      (t3 + 1) (by omega)
    have h_t2 : parseMembersTail (t3 + 2)
        (',' :: (stringifyStr "referredBy" ++ ':' :: (stringifyStr r ++
          ',' :: (stringifyStr "referrals" ++ ':' :: (stringifyStrArr refs ++ '\x7d' :: rest))))) =
        some ([("referredBy", Json.str r),
               ("referrals", Json.arr (refs.map Json.str))], rest) := by
      rw [parseMembersTail.eq_def]
      simp only [stringifyStr, List.cons_append, List.append_assoc, List.nil_append]
        at h_m3 h_t3 ⊢
      rw [skipWs_cons (by decide)]
      simp [h_m3, h_t3]
    have h_m2 := parseMember_str "referralCode" rc
      (',' :: (stringifyStr "referredBy" ++ ':' :: (stringifyStr r ++
        ',' :: (stringifyStr "referrals" ++ ':' :: (stringifyStrArr refs ++ '\x7d' :: rest)))))
      (t3 + 2) (by omega)
    have h_t1 : parseMembersTail (t3 + 3)
        (',' :: (stringifyStr "referralCode" ++ ':' :: (stringifyStr rc ++
          ',' :: (stringifyStr "referredBy" ++ ':' :: (stringifyStr r ++
            ',' :: (stringifyStr "referrals" ++ ':' ::
              (stringifyStrArr refs ++ '\x7d' :: rest))))))) =
        some ([("referralCode", Json.str rc), ("referredBy", Json.str r),
               ("referrals", Json.arr (refs.map Json.str))], rest) := by
      rw [parseMembersTail.eq_def]
      simp only [stringifyStr, List.cons_append, List.append_assoc, List.nil_append]
        at h_m2 h_t2 ⊢
      rw [skipWs_cons (by decide)]
      simp [h_m2, h_t2]
    have h_m1 := parseMember_str "email" em
      (',' :: (stringifyStr "referralCode" ++ ':' :: (stringifyStr rc ++
        ',' :: (stringifyStr "referredBy" ++ ':' :: (stringifyStr r ++
          ',' :: (stringifyStr "referrals" ++ ':' :: (stringifyStrArr refs ++ '\x7d' :: rest)))))))
      (t3 + 3) (by omega)
    have h_members : parseMembers (t3 + 4)
        (stringifyStr "email" ++ ':' :: (stringifyStr em ++
          ',' :: (stringifyStr "referralCode" ++ ':' :: (stringifyStr rc ++
            ',' :: (stringifyStr "referredBy" ++ ':' :: (stringifyStr r ++
              ',' :: (stringifyStr "referrals" ++ ':' ::
                (stringifyStrArr refs ++ '\x7d' :: rest)))))))) =
        some ([("email", Json.str em), ("referralCode", Json.str rc),
               ("referredBy", Json.str r),
               ("referrals", Json.arr (refs.map Json.str))], rest) := by
      rw [parseMembers.eq_def]
      simp only [stringifyStr, List.cons_append, List.append_assoc, List.nil_append]
        at h_m1 h_t1 ⊢
      rw [skipWs_cons (by decide)]
      simp [h_m1, h_t1]
    rw [parseValue.eq_def]
    simp only [stringifyUser, encodeUser, stringifyStr, List.cons_append, List.append_assoc,
      List.nil_append] at h_members ⊢
    rw [skipWs_cons (by decide)]
    simp [h_members]

theorem parseElemsTail_usersTail :
    ∀ (us : List WaitlistUser) (rest : List Char) (fuel : Nat),
      9 * us.length + (us.map (fun u => u.referrals.length)).sum + 1 ≤ fuel →
      parseElemsTail fuel (usersTail us ++ rest) = some (us.map encodeUser, rest)
  | [], rest, fuel, h => by
    obtain ⟨f, rfl⟩ : ∃ f, fuel = f + 1 := ⟨fuel - 1, by omega⟩
    rw [parseElemsTail.eq_def]
    simp only [usersTail, List.cons_append, List.nil_append]
    rw [skipWs_cons (by decide)]
    simp
  | u :: us, rest, fuel, h => by
    obtain ⟨f, rfl⟩ : ∃ f, fuel = f + 1 := ⟨fuel - 1, by omega⟩
    simp only [List.length_cons, List.map_cons, List.sum_cons] at h
    have hu := parseValue_stringifyUser u (usersTail us ++ rest) f (by omega)
    have ih := parseElemsTail_usersTail us rest f (by omega)
    rw [parseElemsTail.eq_def]
    simp only [usersTail, List.cons_append, List.append_assoc, List.nil_append] at hu ⊢
    rw [skipWs_cons (by decide)]
    simp [hu, ih]

theorem parseValue_stringifyUsers :
    ∀ (l : List WaitlistUser) (rest : List Char) (fuel : Nat),
      9 * l.length + (l.map (fun u => u.referrals.length)).sum + 2 ≤ fuel →
      parseValue fuel (stringifyUsers l ++ rest) = some (Json.arr (l.map encodeUser), rest)
  | [], rest, fuel, h => by
    obtain ⟨f, rfl⟩ : ∃ f, fuel = f + 2 := ⟨fuel - 2, by omega⟩
    have hw : skipWs (']' :: rest) = ']' :: rest := skipWs_cons (by decide)
    have he : parseElems (f + 1) (']' :: rest) = some ([], rest) := by
      rw [parseElems.eq_def]
      simp [hw]
    rw [parseValue.eq_def]
    simp only [stringifyUsers, List.cons_append, List.nil_append]
    rw [skipWs_cons (by decide)]
    simp [he]
  | u :: us, rest, fuel, h => by
    obtain ⟨f, rfl⟩ : ∃ f, fuel = f + 2 := ⟨fuel - 2, by omega⟩
    simp only [List.length_cons, List.map_cons, List.sum_cons] at h
    have hu := parseValue_stringifyUser u (usersTail us ++ rest) f (by omega)
    have ht := parseElemsTail_usersTail us rest f (by omega)
    have helems : parseElems (f + 1) (stringifyUser u ++ (usersTail us ++ rest)) =
        some ((u :: us).map encodeUser, rest) := by
      rw [parseElems.eq_def]
      simp only [List.map_cons]
      have hucons : ∃ cs, stringifyUser u = '\x7b' :: cs := by
        rcases u with ⟨em, rc, rb, refs⟩
        exact ⟨_, rfl⟩
      rcases hucons with ⟨cs, hcs⟩
      rw [hcs] at hu ⊢
      simp only [List.cons_append] at hu ⊢
      rw [skipWs_cons (by decide)]
      simp [hu, ht]
    rw [parseValue.eq_def]
    simp only [stringifyUsers, List.cons_append, List.append_assoc, List.nil_append] at helems ⊢
    rw [skipWs_cons (by decide)]
    simp [helems]

theorem stringifyStr_len_ge (s : String) : 2 ≤ (stringifyStr s).length := by
  simp [stringifyStr]

theorem strArrTail_len_ge : ∀ ss : List String, 2 * ss.length + 1 ≤ (strArrTail ss).length
  | [] => by simp [strArrTail]
  | s :: ss => by
    have ih := strArrTail_len_ge ss
    have hs := stringifyStr_len_ge s
    simp only [strArrTail, List.length_cons, List.length_append]
    omega

theorem stringifyStrArr_len_ge : ∀ ss : List String, 2 * ss.length + 2 ≤ (stringifyStrArr ss).length
  | [] => by simp [stringifyStrArr]
  | s :: ss => by
    have ih := strArrTail_len_ge ss
    have hs := stringifyStr_len_ge s
    simp only [stringifyStrArr, List.length_cons, List.length_append]
    omega

theorem stringifyUser_len_ge (u : WaitlistUser) :
    u.referrals.length + 10 ≤ (stringifyUser u).length := by
  rcases u with ⟨em, rc, rb, refs⟩
  have h1 := stringifyStr_len_ge em
  have h2 := stringifyStr_len_ge rc
  have h3 := stringifyStrArr_len_ge refs
  rcases rb with _ | r
  · simp only [stringifyUser, List.length_cons, List.length_append, List.nil_append,
      List.append_assoc]
    omega
  · have h4 := stringifyStr_len_ge r
    simp only [stringifyUser, List.length_cons, List.length_append, List.nil_append,
      List.append_assoc]
    omega

theorem usersTail_len_ge :
    ∀ us : List WaitlistUser,
      9 * us.length + (us.map (fun u => u.referrals.length)).sum + 1 ≤ (usersTail us).length
  | [] => by simp [usersTail]
  | u :: us => by
    have ih := usersTail_len_ge us
    have hu := stringifyUser_len_ge u
    simp only [usersTail, List.length_cons, List.length_append, List.map_cons, List.sum_cons]
    omega

theorem stringifyUsers_len_ge :
    ∀ l : List WaitlistUser,
      9 * l.length + (l.map (fun u => u.referrals.length)).sum + 1 ≤ (stringifyUsers l).length
  | [] => by simp [stringifyUsers]
  | u :: us => by
    have ih := usersTail_len_ge us
    have hu := stringifyUser_len_ge u
    simp only [stringifyUsers, List.length_cons, List.length_append, List.map_cons,
      List.sum_cons]
    omega

theorem decodeStrList_map_str : ∀ rs : List String,
    decodeStrList (Json.arr (rs.map Json.str)) = some rs
  | [] => rfl
  | s :: rs => by
    have ih := decodeStrList_map_str rs
    simp only [decodeStrList] at ih ⊢
    rw [List.map_cons, List.mapM_cons]
    simp only [ih]
    rfl

theorem decodeUser_encodeUser (u : WaitlistUser) : decodeUser (encodeUser u) = some u := by
  rcases u with ⟨em, rc, rb, refs⟩
  rcases rb with _ | r <;>
    simp [encodeUser, decodeUser, decodeStrList_map_str]

theorem decodeUsers_map_encodeUser : ∀ l : List WaitlistUser,
    decodeUsers (Json.arr (l.map encodeUser)) = some l
  | [] => rfl
  | u :: us => by
    have ih := decodeUsers_map_encodeUser us
    simp only [decodeUsers] at ih ⊢
    rw [List.map_cons, List.mapM_cons]
    simp only [ih, decodeUser_encodeUser]
    rfl

theorem saveWaitlist_isEmpty_false (l : List WaitlistUser) :
    (String.mk (stringifyUsers l)).isEmpty = false := by
  have hcons : ∃ cs, stringifyUsers l = '[' :: cs := by
    cases l <;> exact ⟨_, rfl⟩
  rcases hcons with ⟨cs0, hcs0⟩
  rw [Bool.eq_false_iff]
  intro hempty
  have := (String.isEmpty_iff _).mp hempty
  rw [hcs0] at this
  exact absurd (congrArg String.data this) (by simp)

theorem parseJson_stringifyUsers (l : List WaitlistUser) :
    parseJson (String.mk (stringifyUsers l)) = some (Json.arr (l.map encodeUser)) := by
  have hfuel : 9 * l.length + (l.map (fun u => u.referrals.length)).sum + 2 ≤
      (String.mk (stringifyUsers l)).data.length + 1 := by
    have := stringifyUsers_len_ge l
    simpa using by omega
  have hparse := parseValue_stringifyUsers l [] ((String.mk (stringifyUsers l)).data.length + 1)
    hfuel
  rw [List.append_nil] at hparse
  unfold parseJson
  rw [show (String.mk (stringifyUsers l)).data = stringifyUsers l from rfl, hparse]
  simp [skipWs]

theorem getWaitlist_saveWaitlist (l : List WaitlistUser) : getWaitlist (saveWaitlist l) = l := by
  show (if (String.mk (stringifyUsers l)).isEmpty = true then []
    else (parseWaitlist (String.mk (stringifyUsers l))).getD []) = l
  rw [saveWaitlist_isEmpty_false]
  simp only [if_false, Bool.false_eq_true]
  unfold parseWaitlist
  rw [parseJson_stringifyUsers]
  simp [decodeUsers_map_encodeUser]

theorem getWaitlistValue_saveWaitlist (l : List WaitlistUser) :
    getWaitlistValue (saveWaitlist l) = Json.arr (l.map encodeUser) := by
  show (if (String.mk (stringifyUsers l)).isEmpty = true then Json.arr []
    else (parseJson (String.mk (stringifyUsers l))).getD (Json.arr [])) = _
  rw [saveWaitlist_isEmpty_false, parseJson_stringifyUsers]
  simp

theorem getWaitlist_decode_getWaitlistValue (st : Store) :
    getWaitlist st = (decodeUsers (getWaitlistValue st)).getD [] := by
  cases st with
  | none => rfl
  | some s =>
    show (if s.isEmpty = true then [] else (parseWaitlist s).getD []) =
      (decodeUsers (if s.isEmpty = true then Json.arr []
        else (parseJson s).getD (Json.arr []))).getD []
    have harr : decodeUsers (Json.arr []) = some [] := rfl
    cases s.isEmpty
    · simp only [Bool.false_eq_true, if_false]
      unfold parseWaitlist
      cases hp : parseJson s
      · simp [harr]
      · simp
    · simp [harr]

/-!
Characterization of addUser: the three outcomes of a register call.
-/

theorem addUser_existing {e : String} {c : Option String} {st : Store} {u : WaitlistUser}
    (h : findUserByEmail e st = some u) :
    addUser e c st = some (⟨u, some "This email is already on the waitlist."⟩, st) := by
  simp only [addUser, h]

theorem addUser_new {e : String} {c : Option String} {st : Store} {rc : String}
    (h1 : findUserByEmail e st = none) (h2 : generateReferralCode e = some rc) :
    addUser e c st =
      some (⟨⟨e, rc, c, []⟩, none⟩, saveWaitlist (getWaitlist st ++ [⟨e, rc, c, []⟩])) := by
  simp only [addUser, h1, h2]

theorem addUser_throw {e : String} {c : Option String} {st : Store}
    (h1 : findUserByEmail e st = none) (h2 : generateReferralCode e = none) :
    addUser e c st = none := by
  simp only [addUser, h1, h2]

theorem addUser_cases {e : String} {c : Option String} {st : Store} {r : AddResult}
    {st' : Store} (h : addUser e c st = some (r, st')) :
    (∃ u, findUserByEmail e st = some u ∧
      r = ⟨u, some "This email is already on the waitlist."⟩ ∧ st' = st) ∨
    (∃ rc, findUserByEmail e st = none ∧ generateReferralCode e = some rc ∧
      r = ⟨⟨e, rc, c, []⟩, none⟩ ∧
      st' = saveWaitlist (getWaitlist st ++ [⟨e, rc, c, []⟩])) := by
  cases hf : findUserByEmail e st with
  | some u =>
    left
    rw [addUser_existing hf] at h
    have h' := Option.some.inj h
    exact ⟨u, rfl, (congrArg Prod.fst h').symm, (congrArg Prod.snd h').symm⟩
  | none =>
    right
    cases hg : generateReferralCode e with
    | none =>
      rw [addUser_throw hf hg] at h
      exact absurd h (by simp)
    | some rc =>
      rw [addUser_new hf hg] at h
      have h' := Option.some.inj h
      exact ⟨rc, rfl, rfl, (congrArg Prod.fst h').symm, (congrArg Prod.snd h').symm⟩

/-!
Claim theorems.
-/

/-- C2: for every waitlist state already containing a user with email e
(case-insensitively — the user findUserByEmail resolves), register(e,
anyCode) returns that existing user record tagged with the
already-registered error string, and the persisted store is returned
completely unchanged: no record is inserted and no referrals list is
modified. -/
theorem register_already_registered (e : String) (c : Option String) (st : Store)
    (u : WaitlistUser) (h : findUserByEmail e st = some u) :
    addUser e c st = some (⟨u, some "This email is already on the waitlist."⟩, st) :=
  addUser_existing h

/-- Witness for C2: a concrete already-registered email, with the
hypothesis evaluated on a concrete persisted store. -/
theorem register_already_registered_witness :
    addUser "alice@x.com" none
        (saveWaitlist [⟨"alice@x.com", "YWxpY2VAeC5jb20", none, []⟩]) =
      some (⟨⟨"alice@x.com", "YWxpY2VAeC5jb20", none, []⟩,
        some "This email is already on the waitlist."⟩,
        saveWaitlist [⟨"alice@x.com", "YWxpY2VAeC5jb20", none, []⟩]) :=
  register_already_registered "alice@x.com" none
    (saveWaitlist [⟨"alice@x.com", "YWxpY2VAeC5jb20", none, []⟩])
    ⟨"alice@x.com", "YWxpY2VAeC5jb20", none, []⟩ (by decide)

/-- C6 counterexample: the blob "[5]" is valid JSON but not parseable as
a waitlist, yet the source's listAll does not return an empty sequence:
it returns the parsed one-element junk array [5] unvalidated (the
WaitlistUser[] annotation is erased at runtime).  A record blob with
reordered keys is likewise passed through verbatim rather than emptied:
the code performs no shape validation at all. -/
theorem listAll_returns_junk_blob_cex :
    parseWaitlist "[5]" = none ∧
    getWaitlistValue (some "[5]") = Json.arr [Json.num "5"] ∧
    getWaitlistValue (some "[5]") ≠ Json.arr [] ∧
    getWaitlistValue
        (some "[\x7b\"referralCode\":\"YQ\",\"email\":\"a\",\"referrals\":[]\x7d]") =
      Json.arr [Json.obj [("referralCode", Json.str "YQ"), ("email", Json.str "a"),
        ("referrals", Json.arr [])]] :=
  ⟨rfl, rfl,
   by
    rw [show getWaitlistValue (some "[5]") = Json.arr [Json.num "5"] from rfl]
    simp,
   rfl⟩

/-- C6 (amended): listAll returns the empty sequence — with no error
signalled, getWaitlistValue and getWaitlist being total — exactly for
the blobs the try/catch path covers: a missing key, a falsy (empty)
stored text, or a text JSON.parse rejects with a syntax error.  A blob
that is valid JSON but not a waitlist is instead returned as parsed,
unvalidated (see listAll_returns_junk_blob_cex). -/
theorem listAll_empty_on_missing_or_syntax_error (st : Store)
    (h : st = none ∨ st = some "" ∨ ∃ s, st = some s ∧ parseJson s = none) :
    getWaitlistValue st = Json.arr [] ∧ getWaitlist st = [] := by
  rcases h with rfl | rfl | ⟨s, rfl, hp⟩
  · exact ⟨rfl, rfl⟩
  · exact ⟨rfl, rfl⟩
  · constructor
    · show (if s.isEmpty = true then Json.arr []
        else (parseJson s).getD (Json.arr [])) = Json.arr []
      rw [hp]
      cases s.isEmpty <;> simp
    · have hpw : parseWaitlist s = none := by
        unfold parseWaitlist
        rw [hp]
        rfl
      show (if s.isEmpty = true then []
        else (parseWaitlist s).getD []) = []
      rw [hpw]
      cases s.isEmpty <;> simp

/-- Witness for C6: the missing blob and a concrete blob JSON.parse
rejects (a truncated array). -/
theorem listAll_empty_on_missing_or_syntax_error_witness :
    (getWaitlistValue none = Json.arr [] ∧ getWaitlist none = []) ∧
    (getWaitlistValue (some "[") = Json.arr [] ∧ getWaitlist (some "[") = []) :=
  ⟨listAll_empty_on_missing_or_syntax_error none (Or.inl rfl),
   listAll_empty_on_missing_or_syntax_error (some "[")
     (Or.inr (Or.inr ⟨"[", rfl, rfl⟩))⟩

/-- C8: a successful register (the call returns, and the result is not
tagged with an error) appends exactly one new record at the end of the
persisted waitlist and changes nothing else: every pre-existing record,
its email, referralCode, referredBy and referrals fields included, is
kept verbatim and in position.  In particular no referrals list of any
user is modified (the source drops the referrer update: see
referrerCopyUpdate). -/
theorem register_success_frame (e : String) (c : Option String) (st : Store)
    (r : AddResult) (st' : Store)
    (h : addUser e c st = some (r, st')) (hok : r.error = none) :
    getWaitlist st' = getWaitlist st ++ [r.user] ∧
    r.user.email = e ∧ r.user.referredBy = c ∧ r.user.referrals = [] := by
  rcases addUser_cases h with ⟨u, hf, hr, hst⟩ | ⟨rc, hf, hg, hr, hst⟩
  · rw [hr] at hok
    exact absurd hok (by simp)
  · subst hst
    subst hr
    rw [getWaitlist_saveWaitlist]
    exact ⟨rfl, rfl, rfl, rfl⟩

/-- Witness for C8 at a concrete successful registration. -/
theorem register_success_frame_witness :
    getWaitlist (saveWaitlist [⟨"alice@x.com", "YWxpY2VAeC5jb20", none, []⟩]) =
      getWaitlist none ++ [⟨"alice@x.com", "YWxpY2VAeC5jb20", none, []⟩] ∧
    ("alice@x.com" : String) = "alice@x.com" ∧ (none : Option String) = none ∧
    ([] : List String) = [] := by
  have := register_success_frame "alice@x.com" none none
    ⟨⟨"alice@x.com", "YWxpY2VAeC5jb20", none, []⟩, none⟩
    (saveWaitlist [⟨"alice@x.com", "YWxpY2VAeC5jb20", none, []⟩])
    (by decide) rfl
  exact this

/-- C10 counterexample: at the concrete input e = "π@x.com" (a code
point above U+00FF), c = "QQQQ", over the empty store, the hypotheses of
the claim hold — the email is absent and the code resolves to no user —
yet register does not succeed: btoa throws, embedded as a none result,
so no user is created at all. -/
theorem register_dangling_code_cex :
    findUserByEmail "π@x.com" none = none ∧
    findUserByCode "QQQQ" none = none ∧
    addUser "π@x.com" (some "QQQQ") none = none := by
  exact ⟨by decide, by decide, by decide⟩

/-- C10 (amended with the btoa domain condition): when the email is not
yet registered, the supplied referredByCode resolves to no user, and the
email is within btoa's domain (generateReferralCode returns), register
succeeds with no error, stores referredBy as the dangling code verbatim,
appends the one new record with empty referrals, and modifies no
referrals list of any pre-existing user. -/
theorem register_accepts_dangling_code (e c : String) (st : Store) (rc : String)
    (hne : findUserByEmail e st = none) (_hdang : findUserByCode c st = none)
    (hgen : generateReferralCode e = some rc) :
    addUser e (some c) st =
      some (⟨⟨e, rc, some c, []⟩, none⟩,
        saveWaitlist (getWaitlist st ++ [⟨e, rc, some c, []⟩])) ∧
    getWaitlist (saveWaitlist (getWaitlist st ++ [⟨e, rc, some c, []⟩])) =
      getWaitlist st ++ [⟨e, rc, some c, []⟩] :=
  ⟨addUser_new hne hgen, getWaitlist_saveWaitlist _⟩

/-- Witness for C10 at a concrete dangling code over the empty store. -/
theorem register_accepts_dangling_code_witness :
    addUser "carol@x.com" (some "ZZZZ") none =
      some (⟨⟨"carol@x.com", "Y2Fyb2xAeC5jb20", some "ZZZZ", []⟩, none⟩,
        saveWaitlist (getWaitlist none ++ [⟨"carol@x.com", "Y2Fyb2xAeC5jb20", some "ZZZZ", []⟩])) ∧
    getWaitlist (saveWaitlist (getWaitlist none ++
        [⟨"carol@x.com", "Y2Fyb2xAeC5jb20", some "ZZZZ", []⟩])) =
      getWaitlist none ++ [⟨"carol@x.com", "Y2Fyb2xAeC5jb20", some "ZZZZ", []⟩] :=
  register_accepts_dangling_code "carol@x.com" "ZZZZ" none "Y2Fyb2xAeC5jb20"
    (by decide) (by decide) (by decide)

/-- C9: the eight store operations of the two source variants
(src/src/App.tsx and src/unnamed/part_000) are extensionally equal: on
every input and every starting persisted state they return the same
result and produce the same persisted state.  The two source regions are
character-identical, so the embeddings coincide definitionally. -/
theorem variants_extensionally_equal :
    (∀ e, generateReferralCode e = Alt.generateReferralCode e) ∧
    (∀ st, getWaitlist st = Alt.getWaitlist st) ∧
    (∀ l, saveWaitlist l = Alt.saveWaitlist l) ∧
    (∀ e st, findUserByEmail e st = Alt.findUserByEmail e st) ∧
    (∀ c st, findUserByCode c st = Alt.findUserByCode c st) ∧
    (∀ e c st, addUser e c st = Alt.addUser e c st) ∧
    (∀ u, getReferralCount u = Alt.getReferralCount u) ∧
    (∀ u st, getUserRank u st = Alt.getUserRank u st) :=
  ⟨fun _ => rfl, fun _ => rfl, fun _ => rfl, fun _ _ => rfl, fun _ _ => rfl,
   fun _ _ _ => rfl, fun _ => rfl, fun _ _ => rfl⟩

/-- C1 (the code defeats the claim): concrete run of the code at the
failing input.  Alice registers on an empty store; Bob then registers
with referredByCode equal to Alice's referral code.  The call succeeds,
but the persisted waitlist still carries Alice with an empty referrals
list — her persisted referralCount is 0, not 1 — because addUser pushes
the referral onto a record of a fresh, discarded parse of the store (see
referrerCopyUpdate) and then saves the stale local array.  The spec
requires referralCount(alice) to become exactly 1 here. -/
theorem register_referral_update_never_persisted :
    addUser "alice@x.com" none none =
      some (⟨⟨"alice@x.com", "YWxpY2VAeC5jb20", none, []⟩, none⟩,
        saveWaitlist [⟨"alice@x.com", "YWxpY2VAeC5jb20", none, []⟩]) ∧
    addUser "bob@x.com" (some "YWxpY2VAeC5jb20")
        (saveWaitlist [⟨"alice@x.com", "YWxpY2VAeC5jb20", none, []⟩]) =
      some (⟨⟨"bob@x.com", "Ym9iQHguY29t", some "YWxpY2VAeC5jb20", []⟩, none⟩,
        saveWaitlist [⟨"alice@x.com", "YWxpY2VAeC5jb20", none, []⟩,
          ⟨"bob@x.com", "Ym9iQHguY29t", some "YWxpY2VAeC5jb20", []⟩]) ∧
    findUserByCode "YWxpY2VAeC5jb20"
        (saveWaitlist [⟨"alice@x.com", "YWxpY2VAeC5jb20", none, []⟩,
          ⟨"bob@x.com", "Ym9iQHguY29t", some "YWxpY2VAeC5jb20", []⟩]) =
      some ⟨"alice@x.com", "YWxpY2VAeC5jb20", none, []⟩ ∧
    (getWaitlist (saveWaitlist [⟨"alice@x.com", "YWxpY2VAeC5jb20", none, []⟩,
        ⟨"bob@x.com", "Ym9iQHguY29t", some "YWxpY2VAeC5jb20", []⟩])).map getReferralCount =
      [0, 0] :=
  ⟨by decide, by decide, by decide, by decide⟩

/-- C3 counterexample: the two spellings "A@x.com" and "a@x.com" are the
same user for the case-insensitive uniqueness check (equal after
toLowerCase), yet the referral-code derivation gives them different
codes: the derivation does not agree with the uniqueness check. -/
theorem generateReferralCode_case_sensitivity_cex :
    jsToLower "A@x.com" = jsToLower "a@x.com" ∧
    generateReferralCode "A@x.com" ≠ generateReferralCode "a@x.com" := by
  exact ⟨by decide, by decide⟩

/-- C3 (amended): the derivation is a deterministic pure function of the
exact raw email and is a reversible (hence injective) encoding with the
trailing padding stripped — decodeReferralCode recovers the email from
the code, and two emails with the same code are equal as raw strings.
It agrees with the uniqueness check only on verbatim-equal emails, not
on merely case-insensitively equal ones. -/
theorem generateReferralCode_reversible (e1 e2 c : String)
    (h1 : generateReferralCode e1 = some c) (h2 : generateReferralCode e2 = some c) :
    decodeReferralCode c = some e1 ∧ e1 = e2 := by
  have d1 := decodeReferralCode_generateReferralCode e1 c h1
  have d2 := decodeReferralCode_generateReferralCode e2 c h2
  refine ⟨d1, ?_⟩
  rw [d1] at d2
  exact Option.some.inj d2

/-- Witness for C3 at a concrete email and its concrete code. -/
theorem generateReferralCode_reversible_witness :
    decodeReferralCode "YUBiLmM" = some "a@b.c" ∧ ("a@b.c" : String) = "a@b.c" :=
  generateReferralCode_reversible "a@b.c" "a@b.c" "YUBiLmM" (by decide) (by decide)

/-- C5 counterexample: for the email "€@x.com" (the euro sign is above
U+00FF) over the empty store, register does not return at all — btoa
throws InvalidCharacterError while deriving the referral code — so no
user record can be returned by a subsequent findByEmail. -/
theorem register_findByEmail_roundtrip_cex :
    addUser "€@x.com" none none = none ∧ findUserByEmail "€@x.com" none = none := by
  exact ⟨by decide, by decide⟩

/-- C5 (amended to the calls that return): whenever register(e, c)
returns — it throws InvalidCharacterError when e is new and has a code
point above U+00FF — a findByEmail(e) on the resulting persisted state
returns a user record whose email equals e after lowercasing. -/
theorem register_findByEmail_roundtrip (e : String) (c : Option String) (st : Store)
    (r : AddResult) (st' : Store) (h : addUser e c st = some (r, st')) :
    ∃ u, findUserByEmail e st' = some u ∧ jsToLower u.email = jsToLower e := by
  rcases addUser_cases h with ⟨u, hf, hr, hst⟩ | ⟨rc, hf, hg, hr, hst⟩
  · subst hst
    refine ⟨u, hf, ?_⟩
    have := List.find?_some hf
    simpa using this
  · subst hst
    refine ⟨⟨e, rc, c, []⟩, ?_, rfl⟩
    show (getWaitlist (saveWaitlist (getWaitlist st ++ [⟨e, rc, c, []⟩]))).find?
      (fun u => jsToLower u.email == jsToLower e) = _
    rw [getWaitlist_saveWaitlist, List.find?_append]
    have hnone : (getWaitlist st).find? (fun u => jsToLower u.email == jsToLower e) = none := hf
    rw [hnone]
    simp

/-- Witness for C5 at a concrete registration over the empty store. -/
theorem register_findByEmail_roundtrip_witness :
    ∃ u, findUserByEmail "alice@x.com"
        (saveWaitlist [⟨"alice@x.com", "YWxpY2VAeC5jb20", none, []⟩]) = some u ∧
      jsToLower u.email = jsToLower "alice@x.com" :=
  register_findByEmail_roundtrip "alice@x.com" none none
    ⟨⟨"alice@x.com", "YWxpY2VAeC5jb20", none, []⟩, none⟩
    (saveWaitlist [⟨"alice@x.com", "YWxpY2VAeC5jb20", none, []⟩]) (by decide)

/-- C7: register preserves the data-model invariant that the persisted
waitlist holds at most one record per lowercase email.  The duplicate
branch leaves the store untouched; the insert branch appends an email
which findUserByEmail just certified matches no existing record. -/
theorem register_preserves_email_uniqueness (e : String) (c : Option String) (st : Store)
    (r : AddResult) (st' : Store)
    (hinv : (getWaitlist st).Pairwise (fun a b => jsToLower a.email ≠ jsToLower b.email))
    (h : addUser e c st = some (r, st')) :
    (getWaitlist st').Pairwise (fun a b => jsToLower a.email ≠ jsToLower b.email) := by
  rcases addUser_cases h with ⟨u, hf, hr, hst⟩ | ⟨rc, hf, hg, hr, hst⟩
  · subst hst
    exact hinv
  · subst hst
    rw [getWaitlist_saveWaitlist, List.pairwise_append]
    refine ⟨hinv, by simp, ?_⟩
    intro a ha b hb
    have hb' : b = ⟨e, rc, c, []⟩ := by simpa using hb
    subst hb'
    have := List.find?_eq_none.mp hf a ha
    simpa using this

/-- Witness for C7 at a concrete second registration. -/
theorem register_preserves_email_uniqueness_witness :
    (getWaitlist (saveWaitlist [⟨"alice@x.com", "YWxpY2VAeC5jb20", none, []⟩,
        ⟨"bob@x.com", "Ym9iQHguY29t", none, []⟩])).Pairwise
      (fun a b => jsToLower a.email ≠ jsToLower b.email) :=
  register_preserves_email_uniqueness "bob@x.com" none
    (saveWaitlist [⟨"alice@x.com", "YWxpY2VAeC5jb20", none, []⟩])
    ⟨⟨"bob@x.com", "Ym9iQHguY29t", none, []⟩, none⟩
    (saveWaitlist [⟨"alice@x.com", "YWxpY2VAeC5jb20", none, []⟩,
      ⟨"bob@x.com", "Ym9iQHguY29t", none, []⟩])
    (by decide) (by decide)

theorem rankLe_iff (a b : WaitlistUser) :
    (decide (rankCmp a b ≤ 0) = true) ↔ getReferralCount b ≤ getReferralCount a := by
  rw [decide_eq_true_iff]
  unfold rankCmp
  omega

theorem rankLe_trans (a b c : WaitlistUser) :
    decide (rankCmp a b ≤ 0) → decide (rankCmp b c ≤ 0) → decide (rankCmp a c ≤ 0) := by
  simp only [rankLe_iff]
  omega

theorem rankLe_total (a b : WaitlistUser) :
    decide (rankCmp a b ≤ 0) || decide (rankCmp b a ≤ 0) := by
  rw [Bool.or_eq_true]
  simp only [rankLe_iff]
  omega

theorem findIdx_email_eq_indexOf :
    ∀ (s : List WaitlistUser) (u : WaitlistUser), u ∈ s →
      s.Pairwise (fun a b => a.email ≠ b.email) →
      s.findIdx? (fun v => v.email == u.email) = some (s.indexOf u)
  | [], u, hmem, _ => absurd hmem (by simp)
  | v :: vs, u, hmem, hp => by
    by_cases hvu : v = u
    · subst hvu
      rw [List.findIdx?_cons]
      simp [List.indexOf_cons]
    · have humem : u ∈ vs := by
        rcases List.mem_cons.mp hmem with h | h
        · exact absurd h.symm hvu
        · exact h
      have hne : v.email ≠ u.email := (List.pairwise_cons.mp hp).1 u humem
      have ih := findIdx_email_eq_indexOf vs u humem (List.pairwise_cons.mp hp).2
      rw [List.findIdx?_cons, if_neg (by simpa using hne), List.findIdx?_succ, ih,
        List.indexOf_cons]
      have hbeq : (v == u) = false := by simp [hvu]
      rw [hbeq]
      simp

/-- C4: for a persisted waitlist whose records carry pairwise distinct
emails (the data-model invariant; rank identifies the user by exact
email match), the sorted copy built by getUserRank is the unique stable
descending sort of the waitlist — a permutation, non-increasing
referralCount on every adjacent pair, and equal-count users kept in
their persisted (insertion) order — and getUserRank returns the 1-based
position of the user in that sorted copy. -/
theorem getUserRank_stable_sort (st : Store) (u : WaitlistUser)
    (hmem : u ∈ getWaitlist st)
    (hd : (getWaitlist st).Pairwise (fun a b => a.email ≠ b.email)) :
    ((getWaitlist st).mergeSort (fun a b => decide (rankCmp a b ≤ 0))).Perm (getWaitlist st) ∧
    ((getWaitlist st).mergeSort (fun a b => decide (rankCmp a b ≤ 0))).Chain'
      (fun a b => getReferralCount b ≤ getReferralCount a) ∧
    (∀ k : Nat,
      ((getWaitlist st).mergeSort (fun a b => decide (rankCmp a b ≤ 0))).filter
          (fun v => getReferralCount v == k) =
        (getWaitlist st).filter (fun v => getReferralCount v == k)) ∧
    getUserRank u st =
      (((getWaitlist st).mergeSort (fun a b => decide (rankCmp a b ≤ 0))).indexOf u : Int) + 1 := by
  have hperm := List.mergeSort_perm (getWaitlist st) (fun a b => decide (rankCmp a b ≤ 0))
  have hsorted : ((getWaitlist st).mergeSort (fun a b => decide (rankCmp a b ≤ 0))).Pairwise
      (fun a b => decide (rankCmp a b ≤ 0) = true) :=
    List.sorted_mergeSort rankLe_trans rankLe_total (getWaitlist st)
  refine ⟨hperm, ?_, ?_, ?_⟩
  · exact (hsorted.imp (fun hab => (rankLe_iff _ _).mp hab)).chain'
  · intro k
    have hsubl : List.Sublist ((getWaitlist st).filter (fun v => getReferralCount v == k))
        (getWaitlist st) :=
      List.filter_sublist _
    have hpair : ((getWaitlist st).filter (fun v => getReferralCount v == k)).Pairwise
        (fun a b => decide (rankCmp a b ≤ 0)) := by
      apply List.pairwise_of_forall_mem_list
      intro a ha b hb
      have hka : getReferralCount a = k := by simpa using (List.mem_filter.mp ha).2
      have hkb : getReferralCount b = k := by simpa using (List.mem_filter.mp hb).2
      exact (rankLe_iff a b).mpr (by omega)
    have hsub2 := List.sublist_mergeSort rankLe_trans rankLe_total hpair hsubl
    have hself : ((getWaitlist st).filter (fun v => getReferralCount v == k)).filter
        (fun v => getReferralCount v == k) =
        (getWaitlist st).filter (fun v => getReferralCount v == k) :=
      List.filter_eq_self.mpr (fun a ha => (List.mem_filter.mp ha).2)
    have hsub3 : List.Sublist ((getWaitlist st).filter (fun v => getReferralCount v == k))
        (((getWaitlist st).mergeSort (fun a b => decide (rankCmp a b ≤ 0))).filter
          (fun v => getReferralCount v == k)) := by
      rw [← hself]
      exact hsub2.filter _
    have hlen : (((getWaitlist st).mergeSort (fun a b => decide (rankCmp a b ≤ 0))).filter
        (fun v => getReferralCount v == k)).length =
        ((getWaitlist st).filter (fun v => getReferralCount v == k)).length :=
      (hperm.filter _).length_eq
    exact (hsub3.eq_of_length hlen.symm).symm
  · have hu_s : u ∈ (getWaitlist st).mergeSort (fun a b => decide (rankCmp a b ≤ 0)) :=
      hperm.mem_iff.mpr hmem
    have hds : ((getWaitlist st).mergeSort (fun a b => decide (rankCmp a b ≤ 0))).Pairwise
        (fun a b => a.email ≠ b.email) :=
      (hperm.pairwise_iff (fun h => Ne.symm h)).mpr hd
    have hidx := findIdx_email_eq_indexOf _ u hu_s hds
    show jsFindIndex (fun v => v.email == u.email)
      ((getWaitlist st).mergeSort (fun a b => decide (rankCmp a b ≤ 0))) + 1 = _
    unfold jsFindIndex
    rw [hidx]

/-- Witness for C4 on a concrete persisted waitlist: Alice has one
referral, Bob has none, and Bob's rank is computed from the stable
descending sort of the parsed store. -/
theorem getUserRank_stable_sort_witness :
    ((getWaitlist (saveWaitlist [⟨"alice@x.com", "YWxpY2VAeC5jb20", none, ["bob@x.com"]⟩,
        ⟨"bob@x.com", "Ym9iQHguY29t", some "YWxpY2VAeC5jb20", []⟩])).mergeSort
      (fun a b => decide (rankCmp a b ≤ 0))).Perm
        (getWaitlist (saveWaitlist [⟨"alice@x.com", "YWxpY2VAeC5jb20", none, ["bob@x.com"]⟩,
          ⟨"bob@x.com", "Ym9iQHguY29t", some "YWxpY2VAeC5jb20", []⟩])) ∧
    ((getWaitlist (saveWaitlist [⟨"alice@x.com", "YWxpY2VAeC5jb20", none, ["bob@x.com"]⟩,
        ⟨"bob@x.com", "Ym9iQHguY29t", some "YWxpY2VAeC5jb20", []⟩])).mergeSort
      (fun a b => decide (rankCmp a b ≤ 0))).Chain'
        (fun a b => getReferralCount b ≤ getReferralCount a) ∧
    (∀ k : Nat,
      ((getWaitlist (saveWaitlist [⟨"alice@x.com", "YWxpY2VAeC5jb20", none, ["bob@x.com"]⟩,
          ⟨"bob@x.com", "Ym9iQHguY29t", some "YWxpY2VAeC5jb20", []⟩])).mergeSort
        (fun a b => decide (rankCmp a b ≤ 0))).filter
          (fun v => getReferralCount v == k) =
        (getWaitlist (saveWaitlist [⟨"alice@x.com", "YWxpY2VAeC5jb20", none, ["bob@x.com"]⟩,
          ⟨"bob@x.com", "Ym9iQHguY29t", some "YWxpY2VAeC5jb20", []⟩])).filter
          (fun v => getReferralCount v == k)) ∧
    getUserRank ⟨"bob@x.com", "Ym9iQHguY29t", some "YWxpY2VAeC5jb20", []⟩
        (saveWaitlist [⟨"alice@x.com", "YWxpY2VAeC5jb20", none, ["bob@x.com"]⟩,
          ⟨"bob@x.com", "Ym9iQHguY29t", some "YWxpY2VAeC5jb20", []⟩]) =
      (((getWaitlist (saveWaitlist [⟨"alice@x.com", "YWxpY2VAeC5jb20", none, ["bob@x.com"]⟩,
          ⟨"bob@x.com", "Ym9iQHguY29t", some "YWxpY2VAeC5jb20", []⟩])).mergeSort
        (fun a b => decide (rankCmp a b ≤ 0))).indexOf
          ⟨"bob@x.com", "Ym9iQHguY29t", some "YWxpY2VAeC5jb20", []⟩ : Int) + 1 :=
  getUserRank_stable_sort
    (saveWaitlist [⟨"alice@x.com", "YWxpY2VAeC5jb20", none, ["bob@x.com"]⟩,
      ⟨"bob@x.com", "Ym9iQHguY29t", some "YWxpY2VAeC5jb20", []⟩])
    ⟨"bob@x.com", "Ym9iQHguY29t", some "YWxpY2VAeC5jb20", []⟩
    (by decide) (by decide)
